import Mathlib

set_option linter.unusedSectionVars false

/-!
Formal model of the MIPRO-style prompt optimizer
(`src/optimizer.ts`, `src/scorers.ts`, `src/types.ts`).

The TypeScript sources are shallowly embedded as follows.

* JavaScript numbers are modeled by an arbitrary linearly ordered type with
  the arithmetic the code actually performs (instantiable at `ℝ`, `ℚ`, `ℤ`),
  and by `ℝ` with `Real.sqrt` / `Real.log` when the exact `Math.sqrt` /
  `Math.log` formula matters.  `NaN` — which the scorer can actually
  produce — is modeled explicitly with `Option ℚ` (`none` = `NaN`).
* All external effects (the LLM-backed task executor, the random shuffles,
  the language-model candidate proposals) are modeled as oracle functions
  supplied as parameters: the optimizer's control flow is a deterministic
  function of those oracles, so a theorem quantified over all oracles covers
  every behavior of the original asynchronous program.
* Fallible places (JS `undefined` access / `TypeError` crashes) return
  `Option`, with `none` marking the crash.
-/

namespace Mipro

/-! ## JavaScript values, for `src/scorers.ts`

`arrayOfObjectsScorer` receives `Record<string, any>[]` arguments.  We model
a dynamic JS value; records are association lists (JS objects cannot hold
duplicate keys, but only key lookup and `Object.keys` are used below).
-/

inductive JsValue : Type where
  | str : String → JsValue
  | num : ℚ → JsValue
  | bool : Bool → JsValue
  | null : JsValue
  | arr : List JsValue → JsValue
  | obj : List (String × JsValue) → JsValue

/-- JS strict equality `===`: structural on primitives; on two distinct
array/object *references* it is `false`.  In the scorer the two sides always
come from independently constructed data (model output vs. dataset), so
composite values are never reference-equal. -/
def jsStrictEq : JsValue → JsValue → Bool
  | JsValue.str a, JsValue.str b => a == b
  | JsValue.num a, JsValue.num b => a == b
  | JsValue.bool a, JsValue.bool b => a == b
  | JsValue.null, JsValue.null => true
  | _, _ => false

/-- Lift of `===` to possibly-`undefined` operands (`none` = `undefined`). -/
def jsOptEq : Option JsValue → Option JsValue → Bool
  | some a, some b => jsStrictEq a b
  | none, none => true
  | _, _ => false

/-- JS `Array.prototype.includes` (SameValueZero comparison). -/
def jsIncludes (l : List JsValue) (v : JsValue) : Bool :=
  l.any (fun x => jsStrictEq x v)

/-- Property access `o[key]`; `none` models `undefined`. -/
def getField (o : List (String × JsValue)) (k : String) : Option JsValue :=
  (o.find? (fun kv => kv.1 == k)).map (fun kv => kv.2)

/-- One iteration of the `for (const key of keys)` loop body of `fieldScore`
in `src/scorers.ts`: the amount added to `hits` for one key of `exp`. -/
def keyScore (out exp : List (String × JsValue)) (k : String) : ℚ :=
  match getField exp k, getField out k with
  | some (JsValue.arr ev), some (JsValue.arr ov) =>
    if ev.length = 0 then 1
    else ((ev.filter (fun v => jsIncludes ov v)).length : ℚ) / (ev.length : ℚ)
  | ev, ov => if jsOptEq ev ov then 1 else 0

/-- Function `fieldScore` from `src/scorers.ts`: `hits / keys.length` over the keys of
`exp`.  When `exp` has no keys the JS code computes `0 / 0 = NaN`, modeled as
`none`. -/
def fieldScore (out exp : List (String × JsValue)) : Option ℚ :=
  let keys := exp.map (fun kv => kv.1)
  let hits := keys.foldl (fun h k => h + keyScore out exp k) 0
  if keys.length = 0 then none else some (hits / (keys.length : ℚ))

/-- JS `Math.max`; `NaN` (= `none`) is contagious. -/
def jsMax : Option ℚ → Option ℚ → Option ℚ
  | some a, some b => some (max a b)
  | _, _ => none

/-- JS `+` on numbers; `NaN` (= `none`) is contagious. -/
def optAdd : Option ℚ → Option ℚ → Option ℚ
  | some a, some b => some (a + b)
  | _, _ => none

/-- The inner `for (const out of output)` loop of `arrayOfObjectsScorer`:
fold `bestMatch = Math.max(bestMatch, fieldScore(out, exp))` with the early
`break` once `bestMatch === 1`. -/
def bestMatchLoop (exp : List (String × JsValue)) :
    List (List (String × JsValue)) → Option ℚ → Option ℚ
  | [], b => b
  | out :: rest, b =>
    let b' := jsMax b (fieldScore out exp)
    if b' = some 1 then b' else bestMatchLoop exp rest b'

/-- Function `arrayOfObjectsScorer` from `src/scorers.ts`.  Result `none` models a JS
`NaN` return value. -/
def arrayOfObjectsScorer (output expected : List (List (String × JsValue))) :
    Option ℚ :=
  if expected.length = 0 then some 0
  else if output.length = 0 then some 0
  else
    let cumulative :=
      expected.foldl (fun cum exp => optAdd cum (bestMatchLoop exp output (some 0))) (some 0)
    cumulative.map (fun q => q / (expected.length : ℚ))

/-! ## Data model (`src/types.ts`) and the Evaluator (`evaluate`) -/

/-- Structure `DatasetRow` from `src/types.ts`. -/
structure DatasetRow (Input Output : Type) : Type where
  input : Input
  output : Output

/-- The record returned by `evaluate` in `src/optimizer.ts`. -/
structure EvalResult (Input Output α : Type) : Type where
  score : α
  instruction : String
  fewShotExamples : List (DatasetRow Input Output)

variable {Input Output α : Type} [Zero α] [Add α] [Div α] [NatCast α]

/-- Function `evaluate` from `src/optimizer.ts`.  The task executor `fn` is an external
LLM call; it is passed in as a (pure) oracle.  The accumulation loop
`score += scorer(output, expected)` is the `foldl`; the final score is
`evalDataset.length === 0 ? 0 : score / evalDataset.length`. -/
def evaluate (instruction : String) (fewShotExamples : List (DatasetRow Input Output))
    (evalDataset : List (DatasetRow Input Output))
    (fn : Input → List (DatasetRow Input Output) → String → Output)
    (scorer : Output → Output → α) : EvalResult Input Output α :=
  let score := evalDataset.foldl
    (fun acc row => acc + scorer (fn row.input fewShotExamples instruction) row.output) 0
  { score := if evalDataset.length = 0 then 0 else score / (evalDataset.length : α),
    instruction := instruction,
    fewShotExamples := fewShotExamples }

/-! ## DemoPoolBuilder (`selectRandomRowsFromDataset`, `generateDemoCandidates`)

The JS shuffle `[...dataset].sort(() => Math.random() - 0.5)` always produces
a permutation of `dataset`; it is modeled by the caller supplying the
permuted list.  The teacher attempt `scorer(await fn(row.input, [], basePrompt),
row.output) === 1` is a per-row external call, modeled by the boolean oracle
`passes`.
-/

variable {R : Type}

/-- Function `selectRandomRowsFromDataset` from `src/optimizer.ts`, applied to the
already-shuffled copy of the dataset: `shuffled.slice(0, Math.min(maxExamples,
shuffled.length))`. -/
def selectRandomRowsFromDataset (shuffled : List R) (maxExamples : ℕ) : List R :=
  shuffled.take (min maxExamples shuffled.length)

/-- The teacher-filter loop inside `generateDemoCandidates`: walk the shuffled
rows, stop once `demos.length >= numFewShot`, keep rows whose teacher attempt
passes the metric. -/
def collectTeacherDemos (passes : R → Bool) (numFewShot : ℕ) :
    List R → List R → List R
  | [], demos => demos
  | row :: rest, demos =>
    if numFewShot ≤ demos.length then demos
    else if passes row then collectTeacherDemos passes numFewShot rest (demos ++ [row])
    else collectTeacherDemos passes numFewShot rest demos

/-- One iteration of the `for (let c = 0; ...)` loop of
`generateDemoCandidates`: build one demo pool from a shuffled copy
(`shuffled1`), topping up, if needed, with random rows (`shuffled2` is the
shuffled copy drawn inside `selectRandomRowsFromDataset`). -/
def generateDemoCandidate (numFewShot : ℕ) (shuffled1 shuffled2 : List R)
    (passes : R → Bool) : List R :=
  let demos := collectTeacherDemos passes numFewShot shuffled1 []
  if demos.length < numFewShot then
    demos ++ selectRandomRowsFromDataset shuffled2 (numFewShot - demos.length)
  else demos

/-- Function `generateDemoCandidates` from `src/optimizer.ts`: `numDemoCandidates`
pools, each built from its own shuffles (`shuffle1 c`, `shuffle2 c`) and its
own teacher verdicts (`passes c`). -/
def generateDemoCandidates (numDemoCandidates numFewShot : ℕ)
    (shuffle1 shuffle2 : ℕ → List R) (passes : ℕ → R → Bool) :
    List (List R) :=
  (List.range numDemoCandidates).map
    (fun c => generateDemoCandidate numFewShot (shuffle1 c) (shuffle2 c) (passes c))

/-! ## BanditSearch and OptimizationController (`runBayesianOptimization`)

State and step function of the trial loop of `runBayesianOptimization` in
`src/optimizer.ts`.  Numeric scores live in an arbitrary linearly ordered
type `α` carrying exactly the arithmetic the loop performs (`+`, `/`, `*`,
`0`, `1`, `2`, casts from `ℕ`); `Math.sqrt` and `Math.log` are the
`sqrt`/`log` oracle fields.  The claims about the exact UCB formula
instantiate `α := ℝ`, `sqrt := Real.sqrt`, `log := Real.log`; control-flow
claims are proved for every instance, `ℝ` included.
-/

variable [LinearOrder α] [One α] [Mul α] [OfNat α 2]

/-- Per-combo statistic `{ total: number; count: number }`. -/
structure Stat (α : Type) : Type where
  total : α
  count : ℕ
deriving DecidableEq

/-- A `Combo` of `runBayesianOptimization`: instruction text, its demo pool,
and the composite key `instr + "::" + i`. -/
structure Combo (R : Type) : Type where
  instruction : String
  demos : List R
  key : String
deriving DecidableEq

/-- The `best` record tracked by the trial loop. -/
structure Best (R α : Type) : Type where
  instruction : String
  score : α
  fewShotExamples : List R
deriving DecidableEq

/-- Mutable state of the trial loop: the growable combo registry, the
`existingInstructions` set (insertion-ordered, duplicate-free), the stats map
(JS `Map`, insertion-ordered), and the current best. -/
structure OState (R α : Type) : Type where
  combos : List (Combo R)
  existingInstructions : List String
  stats : List (String × Stat α)
  best : Option (Best R α)
deriving DecidableEq

/-- External effects of one run, as oracles: `Math.sqrt`, `Math.log`, the
mini-batch score observed at trial `t` for the chosen combo (the result of
`evaluate` on the random mini-batch), the full-dataset score at a checkpoint
after trial `t`, and the instruction texts returned by
`proposeInstructionCandidates` at that checkpoint. -/
structure Oracles (R α : Type) : Type where
  sqrt : α → α
  log : α → α
  evalScore : ℕ → Combo R → α
  fullEvalScore : ℕ → Combo R → α
  proposed : ℕ → List String

/-- The configuration record destructured by `runBayesianOptimization`. -/
structure OptParams : Type where
  numTrials : ℕ
  numFewShot : ℕ
  numDemoCandidates : ℕ
  miniBatchSize : ℕ
  miniBatchFullEvalSteps : ℕ
deriving DecidableEq

/-- Key `instr + "::" + i` of a combo. -/
def comboKey (instr : String) (i : ℕ) : String :=
  instr ++ "::" ++ toString i

/-- Lookup `stats.get(key)` on the JS `Map`. -/
def findStat (stats : List (String × Stat α)) (k : String) : Option (Stat α) :=
  (stats.find? (fun kv => kv.1 == k)).map (fun kv => kv.2)

/-- Update `stats.set(key, v)` on the JS `Map`: overwrite in place if present,
append otherwise. -/
def setStat (stats : List (String × Stat α)) (k : String) (v : Stat α) :
    List (String × Stat α) :=
  if (stats.find? (fun kv => kv.1 == k)).isSome then
    stats.map (fun kv => if kv.1 == k then (k, v) else kv)
  else stats ++ [(k, v)]

/-- The pairs `(i, demoCandidates[i])` of the indexed loop
`for (let i = 0; i < demoCandidates.length; i++)`. -/
def indexedPools (start : ℕ) : List (List R) → List (ℕ × List R)
  | [] => []
  | p :: rest => (start, p) :: indexedPools (start + 1) rest

/-- The UCB value `mean + Math.sqrt((2 * Math.log(t + 1)) / stat.count)` of a
statistic at trial index `t`. -/
def ucbValue (sqrt log : α → α) (t : ℕ) (st : Stat α) : α :=
  st.total / (st.count : α) + sqrt ((2 * log ((t : α) + 1)) / (st.count : α))

/-- Comparison `ucb > maxUcb`, where `maxUcb` starts out as `-Infinity` (`none`): the
comparison with `-Infinity` is always true for a (finite) field value. -/
def gtOpt [LinearOrder β] (u : β) : Option β → Bool
  | none => true
  | some m => decide (m < u)

/-- The steady-state `for (const c of combos)` selection loop: break on the
first combo with no statistic, otherwise keep the running strict arg-max of
the UCB values. -/
def ucbLoop (sqrt log : α → α) (stats : List (String × Stat α)) (t : ℕ) :
    List (Combo R) → Combo R → Option α → Combo R
  | [], acc, _ => acc
  | c :: rest, acc, maxUcb =>
    match findStat stats c.key with
    | none => c
    | some st =>
      let u := ucbValue sqrt log t st
      if gtOpt u maxUcb then ucbLoop sqrt log stats t rest c (some u)
      else ucbLoop sqrt log stats t rest acc maxUcb

/-- Combo selection at trial `t`: warm-start `combos[t]` while
`t < combos.length`, else the UCB loop started at `combo = combos[0]`,
`maxUcb = -Infinity`.  With an empty registry the JS code would read
`combos[0]` (`undefined`) and crash on `combo.instruction`; that is the
`none` result. -/
def selectCombo (sqrt log : α → α) (stats : List (String × Stat α)) (t : ℕ)
    (combos : List (Combo R)) : Option (Combo R) :=
  if t < combos.length then combos[t]?
  else
    match combos with
    | [] => none
    | c0 :: _ => some (ucbLoop sqrt log stats t combos c0 none)

/-- The expansion loop run after a checkpoint: for each proposed instruction
not already in `existingInstructions`, add it to the set and push one combo
per demo pool. -/
def expandCombos (demoCandidates : List (List R)) (newCandidates : List String)
    (s : OState R α) : OState R α :=
  newCandidates.foldl
    (fun s newInstr =>
      if newInstr ∈ s.existingInstructions then s
      else
        { s with
          existingInstructions := s.existingInstructions ++ [newInstr],
          combos := s.combos ++ (indexedPools 0 demoCandidates).map
            (fun p => ⟨newInstr, p.2, comboKey newInstr p.1⟩) })
    s

/-- The body of one trial after the combo has been selected: observe the
mini-batch score, update the statistic, update `best` on strict improvement,
and — when `(t + 1) % miniBatchFullEvalSteps === 0` — run the full
evaluation, possibly replace `best` (comparing against `best?.score ?? 0`),
and expand the registry with the freshly proposed instructions.  `none`
models the crash the JS code would hit reading `best.instruction` off a
`null` best (which turns out to be unreachable). -/
def trialBody (O : Oracles R α) (P : OptParams) (demoCandidates : List (List R))
    (t : ℕ) (s : OState R α) (combo : Combo R) : Option (OState R α) :=
  let score := O.evalScore t combo
  let current := (findStat s.stats combo.key).getD ⟨0, 0⟩
  let stats' := setStat s.stats combo.key ⟨current.total + score, current.count + 1⟩
  let best' : Option (Best R α) :=
    match s.best with
    | none => some ⟨combo.instruction, score, combo.demos⟩
    | some b =>
      if score > b.score then some ⟨combo.instruction, score, combo.demos⟩ else some b
  let s1 : OState R α := { s with stats := stats', best := best' }
  if (t + 1) % P.miniBatchFullEvalSteps = 0 then
    let fullScore := O.fullEvalScore t combo
    let best2 : Option (Best R α) :=
      if fullScore > ((s1.best.map (fun b => b.score)).getD 0) then
        some ⟨combo.instruction, fullScore, combo.demos⟩
      else s1.best
    match best2 with
    | none => none
    | some _ => some (expandCombos demoCandidates (O.proposed t) { s1 with best := best2 })
  else some s1

/-- One iteration of the `for (let t = 0; t < numTrials; t++)` loop:
select a combo (crashing — `none` — on an empty registry in steady state),
then run the trial body. -/
def trialStep (O : Oracles R α) (P : OptParams) (demoCandidates : List (List R))
    (t : ℕ) (s : OState R α) : Option (OState R α) :=
  match selectCombo O.sqrt O.log s.stats t s.combos with
  | none => none
  | some combo => trialBody O P demoCandidates t s combo

/-- Run `n` consecutive trials starting at trial index `t`. -/
def loopFrom (O : Oracles R α) (P : OptParams) (demoCandidates : List (List R)) :
    ℕ → ℕ → OState R α → Option (OState R α)
  | _, 0, s => some s
  | t, n + 1, s =>
    match trialStep O P demoCandidates t s with
    | none => none
    | some s' => loopFrom O P demoCandidates (t + 1) n s'

/-- The initial combo registry: the cross product of the prompt candidates
with the demo pools, in the source's nesting order. -/
def initCombos (promptCandidates : List String) (demoCandidates : List (List R)) :
    List (Combo R) :=
  promptCandidates.flatMap
    (fun instr => (indexedPools 0 demoCandidates).map
      (fun p => ⟨instr, p.2, comboKey instr p.1⟩))

/-- The initial `existingInstructions` set (a JS `Set` keeps first-insertion
order and drops duplicates). -/
def initExisting (promptCandidates : List String) : List String :=
  promptCandidates.foldl (fun e instr => if instr ∈ e then e else e ++ [instr]) []

/-- State just before trial 0. -/
def initState (promptCandidates : List String) (demoCandidates : List (List R)) :
    OState R α :=
  ⟨initCombos promptCandidates demoCandidates, initExisting promptCandidates, [], none⟩

/-- Function `runBayesianOptimization` from `src/optimizer.ts`: build the demo pools
once, form the initial cross-product registry, run `numTrials` trials, and
return `best`.  The result is `some (some b)` for a normal return of a
best record, `some none` for a normal return of `null`, and `none` for a
crash.  The dataset itself only flows through the oracles (`shuffle1`,
`shuffle2`, `passes`, and the two score oracles). -/
def runBayesianOptimization (promptCandidates : List String) (O : Oracles R α)
    (P : OptParams) (shuffle1 shuffle2 : ℕ → List R) (passes : ℕ → R → Bool) :
    Option (Option (Best R α)) :=
  let demoCandidates :=
    generateDemoCandidates P.numDemoCandidates P.numFewShot shuffle1 shuffle2 passes
  (loopFrom O P demoCandidates 0 P.numTrials
      (initState promptCandidates demoCandidates)).map (fun s => s.best)

/-- The loop state after the first `k` trials of a run (`k ≤ numTrials`
corresponds to an actual prefix of the run). -/
def stateAfter (promptCandidates : List String) (O : Oracles R α) (P : OptParams)
    (shuffle1 shuffle2 : ℕ → List R) (passes : ℕ → R → Bool) (k : ℕ) :
    Option (OState R α) :=
  let demoCandidates :=
    generateDemoCandidates P.numDemoCandidates P.numFewShot shuffle1 shuffle2 passes
  loopFrom O P demoCandidates 0 k (initState promptCandidates demoCandidates)

/-! ## Specification-side helper definitions

These are not part of the embedding; they only serve to state and prove
properties of it.
-/

/-- The sublist of `cands` that the expansion loop actually admits: the
candidates that are new with respect to `existing` and not repeated earlier
in `cands` itself. -/
def newOnes (existing : List String) : List String → List String
  | [] => []
  | c :: rest =>
    if c ∈ existing then newOnes existing rest
    else c :: newOnes (existing ++ [c]) rest

/-- Left-to-right strict-improvement arg-max with seed `acc`: the abstract
shape of the steady-state UCB scan. -/
def argmaxFrom {γ β : Type} [LinearOrder β] (f : γ → β) : List γ → γ → γ
  | [], acc => acc
  | c :: rest, acc =>
    if f acc < f c then argmaxFrom f rest c else argmaxFrom f rest acc

/-- The UCB value the selection loop assigns to a combo (using the recorded
statistic; combos with no statistic are short-circuited before this value is
ever used). -/
def ucbOf (sqrt log : α → α) (stats : List (String × Stat α)) (t : ℕ)
    (c : Combo R) : α :=
  ucbValue sqrt log t ((findStat stats c.key).getD ⟨0, 0⟩)

/-- A concrete oracle package over `R := ℕ`, `α := ℤ`, used to exercise the
theorems below on closed inputs. -/
def witOracles : Oracles ℕ ℤ :=
  ⟨id, id, fun t _ => (t : ℤ), fun t _ => (t : ℤ) + 10, fun _ => ["q", "q", "p"]⟩

/-- Concrete parameters: 4 trials, 0-shot pools, 1 demo pool, full evaluation
every 2 trials. -/
def witParams : OptParams := ⟨4, 0, 1, 1, 2⟩

/-- Concrete parameters with a checkpoint after every trial. -/
def witParamsChk : OptParams := ⟨1, 0, 1, 1, 1⟩

/-- Concrete shuffle oracle (for the empty dataset). -/
def witShuffle : ℕ → List ℕ := fun _ => []

/-- Concrete teacher verdict oracle. -/
def witPasses : ℕ → ℕ → Bool := fun _ _ => true

/-- A concrete two-combo registry over `R := ℕ`. -/
def witCombosR : List (Combo ℕ) := [⟨"a", [], "a::0"⟩, ⟨"b", [], "b::0"⟩]

/-- Concrete real-valued statistics covering only the first combo. -/
def witStatsR : List (String × Stat ℝ) := [("a::0", ⟨1, 1⟩)]

/-! ## Structural lemmas about the embedding -/

theorem indexedPools_length (start : ℕ) (l : List (List R)) :
    (indexedPools start l).length = l.length := by
  induction l generalizing start with
  | nil => rfl
  | cons p rest ih => simp [indexedPools, ih]

theorem mem_indexedPools {start : ℕ} {l : List (List R)} {p : ℕ × List R}
    (h : p ∈ indexedPools start l) : ∃ j : ℕ, l[j]? = some p.2 := by
  induction l generalizing start with
  | nil => simp [indexedPools] at h
  | cons q rest ih =>
    simp only [indexedPools, List.mem_cons] at h
    rcases h with h | h
    · exact ⟨0, by simp [h]⟩
    · rcases ih h with ⟨j, hj⟩
      exact ⟨j + 1, by simpa using hj⟩

theorem newOnes_not_mem (existing cands : List String) :
    ∀ x ∈ newOnes existing cands, x ∉ existing := by
  induction cands generalizing existing with
  | nil => simp [newOnes]
  | cons c rest ih =>
    by_cases hc : c ∈ existing
    · simpa [newOnes, hc] using ih existing
    · intro x hx
      simp only [newOnes, hc, if_false, List.mem_cons] at hx
      rcases hx with rfl | hx
      · exact hc
      · intro hxe
        exact (ih (existing ++ [c]) x hx) (by simp [hxe])

theorem newOnes_nodup (existing cands : List String) :
    (newOnes existing cands).Nodup := by
  induction cands generalizing existing with
  | nil => simp [newOnes]
  | cons c rest ih =>
    by_cases hc : c ∈ existing
    · simpa [newOnes, hc] using ih existing
    · simp only [newOnes, hc, if_false, List.nodup_cons]
      refine ⟨fun hmem => ?_, ih (existing ++ [c])⟩
      have := newOnes_not_mem (existing ++ [c]) rest c hmem
      simp at this

theorem flatMap_length_const {γ δ : Type} (l : List γ) (f : γ → List δ) (k : ℕ)
    (h : ∀ x ∈ l, (f x).length = k) : (l.flatMap f).length = l.length * k := by
  induction l with
  | nil => simp
  | cons c rest ih =>
    have hrest := ih (fun x hx => h x (List.mem_cons_of_mem _ hx))
    simp only [List.flatMap_cons, List.length_append, hrest, h c (List.mem_cons_self _ _),
      List.length_cons]
    ring

theorem expandCombos_cons (D : List (List R)) (c : String) (rest : List String)
    (s : OState R α) :
    expandCombos D (c :: rest) s =
      expandCombos D rest
        (if c ∈ s.existingInstructions then s
         else
           { s with
             existingInstructions := s.existingInstructions ++ [c],
             combos := s.combos ++ (indexedPools 0 D).map
               (fun p => ⟨c, p.2, comboKey c p.1⟩) }) := rfl

theorem expandCombos_best (D : List (List R)) (cands : List String)
    (s : OState R α) : (expandCombos D cands s).best = s.best := by
  induction cands generalizing s with
  | nil => rfl
  | cons c rest ih =>
    rw [expandCombos_cons]
    split
    · exact ih s
    · simpa using ih _

theorem expandCombos_spec (D : List (List R)) (cands : List String)
    (s : OState R α) :
    (expandCombos D cands s).combos
        = s.combos ++ (newOnes s.existingInstructions cands).flatMap
            (fun instr => (indexedPools 0 D).map
              (fun p => ⟨instr, p.2, comboKey instr p.1⟩)) ∧
      (expandCombos D cands s).existingInstructions
        = s.existingInstructions ++ newOnes s.existingInstructions cands := by
  induction cands generalizing s with
  | nil => simp [expandCombos, newOnes]
  | cons c rest ih =>
    rw [expandCombos_cons]
    by_cases hc : c ∈ s.existingInstructions
    · simpa [newOnes, hc] using ih s
    · rw [if_neg hc]
      rcases ih ({ s with
        existingInstructions := s.existingInstructions ++ [c],
        combos := s.combos ++ (indexedPools 0 D).map
          (fun p => ⟨c, p.2, comboKey c p.1⟩) }) with ⟨h1, h2⟩
      constructor
      · rw [h1]
        simp [newOnes, hc, List.append_assoc]
      · rw [h2]
        simp [newOnes, hc]

theorem selectCombo_warm (sqrt log : α → α) (stats : List (String × Stat α)) (t : ℕ)
    (combos : List (Combo R)) (h : t < combos.length) :
    selectCombo sqrt log stats t combos = combos[t]? := by
  simp [selectCombo, h]

theorem selectCombo_isSome (sqrt log : α → α) (stats : List (String × Stat α)) (t : ℕ)
    {combos : List (Combo R)} (h : combos ≠ []) :
    (selectCombo sqrt log stats t combos).isSome := by
  rcases combos with _ | ⟨c0, rest⟩
  · exact absurd rfl h
  · by_cases ht : t < (c0 :: rest).length
    · rw [selectCombo_warm _ _ _ _ _ ht]
      simp [List.getElem?_eq_getElem ht]
    · unfold selectCombo
      rw [if_neg ht]
      rfl

theorem mem_expandBlock {D : List (List R)} {instrs : List String} {c : Combo R}
    (h : c ∈ instrs.flatMap (fun instr => (indexedPools 0 D).map
      (fun p => (⟨instr, p.2, comboKey instr p.1⟩ : Combo R)))) :
    ∃ j : ℕ, D[j]? = some c.demos := by
  simp only [List.mem_flatMap, List.mem_map] at h
  obtain ⟨instr, _, p, hp, rfl⟩ := h
  exact mem_indexedPools hp

theorem expand_props (D : List (List R)) (cands : List String) (s2 : OState R α) :
    (∃ l, (expandCombos D cands s2).combos = s2.combos ++ l) ∧
      (expandCombos D cands s2).best = s2.best ∧
      (∀ c ∈ (expandCombos D cands s2).combos,
        c ∈ s2.combos ∨ ∃ j : ℕ, D[j]? = some c.demos) := by
  rcases expandCombos_spec D cands s2 with ⟨h1, -⟩
  refine ⟨⟨_, h1⟩, expandCombos_best D cands s2, ?_⟩
  intro c hc
  rw [h1] at hc
  rcases List.mem_append.mp hc with hc | hc
  · exact Or.inl hc
  · exact Or.inr (mem_expandBlock hc)

theorem trialBody_spec (O : Oracles R α) (P : OptParams) (D : List (List R)) (t : ℕ)
    (s : OState R α) (combo : Combo R) :
    ∃ s', trialBody O P D t s combo = some s' ∧
      (∃ l, s'.combos = s.combos ++ l) ∧
      s'.best.isSome ∧
      (∀ b, s.best = some b → ∃ b', s'.best = some b' ∧ b.score ≤ b'.score) ∧
      (∀ c ∈ s'.combos, c ∈ s.combos ∨ ∃ j : ℕ, D[j]? = some c.demos) := by
  by_cases hchk : (t + 1) % P.miniBatchFullEvalSteps = 0
  · cases hb : s.best with
    | none =>
      by_cases hfull : O.fullEvalScore t combo > O.evalScore t combo
      · simp only [trialBody, hb, hchk, if_true, Option.map_some', Option.getD_some,
          eq_self_iff_true, hfull]
        refine ⟨_, rfl, (expand_props D (O.proposed t) _).1, ?_, ?_, ?_⟩
        · rw [expandCombos_best]
          rfl
        · intro b0 hb0
          simp at hb0
        · intro c hc
          rcases (expand_props D (O.proposed t) _).2.2 c hc with h | h
          · exact Or.inl h
          · exact Or.inr h
      · simp only [trialBody, hb, hchk, if_true, Option.map_some', Option.getD_some,
          eq_self_iff_true, hfull, if_false]
        refine ⟨_, rfl, (expand_props D (O.proposed t) _).1, ?_, ?_, ?_⟩
        · rw [expandCombos_best]
          rfl
        · intro b0 hb0
          simp at hb0
        · intro c hc
          rcases (expand_props D (O.proposed t) _).2.2 c hc with h | h
          · exact Or.inl h
          · exact Or.inr h
    | some b =>
      by_cases hscore : O.evalScore t combo > b.score
      · by_cases hfull : O.fullEvalScore t combo > O.evalScore t combo
        · simp only [trialBody, hb, hchk, if_true, Option.map_some', Option.getD_some,
            eq_self_iff_true, hscore, hfull]
          refine ⟨_, rfl, (expand_props D (O.proposed t) _).1, ?_, ?_, ?_⟩
          · rw [expandCombos_best]
            rfl
          · intro b0 hb0
            injection hb0 with hbb
            subst hbb
            rw [expandCombos_best]
            exact ⟨_, rfl, le_of_lt (lt_trans hscore hfull)⟩
          · intro c hc
            rcases (expand_props D (O.proposed t) _).2.2 c hc with h | h
            · exact Or.inl h
            · exact Or.inr h
        · simp only [trialBody, hb, hchk, if_true, Option.map_some', Option.getD_some,
            eq_self_iff_true, hscore, hfull, if_false]
          refine ⟨_, rfl, (expand_props D (O.proposed t) _).1, ?_, ?_, ?_⟩
          · rw [expandCombos_best]
            rfl
          · intro b0 hb0
            injection hb0 with hbb
            subst hbb
            rw [expandCombos_best]
            exact ⟨_, rfl, le_of_lt hscore⟩
          · intro c hc
            rcases (expand_props D (O.proposed t) _).2.2 c hc with h | h
            · exact Or.inl h
            · exact Or.inr h
      · by_cases hfull : O.fullEvalScore t combo > b.score
        · simp only [trialBody, hb, hchk, if_true, Option.map_some', Option.getD_some,
            eq_self_iff_true, hscore, hfull, if_false]
          refine ⟨_, rfl, (expand_props D (O.proposed t) _).1, ?_, ?_, ?_⟩
          · rw [expandCombos_best]
            rfl
          · intro b0 hb0
            injection hb0 with hbb
            subst hbb
            rw [expandCombos_best]
            exact ⟨_, rfl, le_of_lt hfull⟩
          · intro c hc
            rcases (expand_props D (O.proposed t) _).2.2 c hc with h | h
            · exact Or.inl h
            · exact Or.inr h
        · simp only [trialBody, hb, hchk, if_true, Option.map_some', Option.getD_some,
            eq_self_iff_true, hscore, hfull, if_false]
          refine ⟨_, rfl, (expand_props D (O.proposed t) _).1, ?_, ?_, ?_⟩
          · rw [expandCombos_best]
            rfl
          · intro b0 hb0
            injection hb0 with hbb
            subst hbb
            rw [expandCombos_best]
            exact ⟨_, rfl, le_refl _⟩
          · intro c hc
            rcases (expand_props D (O.proposed t) _).2.2 c hc with h | h
            · exact Or.inl h
            · exact Or.inr h
  · cases hb : s.best with
    | none =>
      simp only [trialBody, hb, hchk, if_false]
      exact ⟨_, rfl, ⟨[], by simp⟩, rfl, fun b0 hb0 => by simp at hb0,
        fun c hc => Or.inl hc⟩
    | some b =>
      by_cases hscore : O.evalScore t combo > b.score
      · simp only [trialBody, hb, hchk, if_false, hscore, if_true]
        refine ⟨_, rfl, ⟨[], by simp⟩, rfl, ?_, fun c hc => Or.inl hc⟩
        intro b0 hb0
        injection hb0 with hbb
        subst hbb
        exact ⟨_, rfl, le_of_lt hscore⟩
      · simp only [trialBody, hb, hchk, if_false, hscore]
        refine ⟨_, rfl, ⟨[], by simp⟩, rfl, ?_, fun c hc => Or.inl hc⟩
        intro b0 hb0
        injection hb0 with hbb
        subst hbb
        exact ⟨_, rfl, le_refl _⟩

theorem trialStep_props {O : Oracles R α} {P : OptParams} {D : List (List R)} {t : ℕ}
    {s s' : OState R α} (h : trialStep O P D t s = some s') :
    (∃ l, s'.combos = s.combos ++ l) ∧ s'.best.isSome ∧
      (∀ b, s.best = some b → ∃ b', s'.best = some b' ∧ b.score ≤ b'.score) ∧
      (∀ c ∈ s'.combos, c ∈ s.combos ∨ ∃ j : ℕ, D[j]? = some c.demos) := by
  unfold trialStep at h
  cases hsel : selectCombo O.sqrt O.log s.stats t s.combos with
  | none => rw [hsel] at h; cases h
  | some combo =>
    rw [hsel] at h
    have h' : trialBody O P D t s combo = some s' := h
    obtain ⟨s'', heq, hprops⟩ := trialBody_spec O P D t s combo
    rw [heq] at h'
    injection h' with h'
    subst h'
    exact hprops

theorem trialStep_isSome (O : Oracles R α) (P : OptParams) (D : List (List R)) (t : ℕ)
    (s : OState R α) (hne : s.combos ≠ []) : (trialStep O P D t s).isSome := by
  have hsel := selectCombo_isSome O.sqrt O.log s.stats t hne
  unfold trialStep
  cases hsel' : selectCombo O.sqrt O.log s.stats t s.combos with
  | none => rw [hsel'] at hsel; simp at hsel
  | some combo =>
    obtain ⟨s'', heq, -⟩ := trialBody_spec O P D t s combo
    show (trialBody O P D t s combo).isSome = true
    rw [heq]
    rfl

theorem loopFrom_total (O : Oracles R α) (P : OptParams) (D : List (List R)) :
    ∀ (n t : ℕ) (s : OState R α), s.combos ≠ [] →
      ∃ s', loopFrom O P D t n s = some s' ∧ ∃ l, s'.combos = s.combos ++ l := by
  intro n
  induction n with
  | zero => exact fun t s hne => ⟨s, rfl, [], by simp⟩
  | succ n ih =>
    intro t s hne
    obtain ⟨s1, hs1⟩ := Option.isSome_iff_exists.mp (trialStep_isSome O P D t s hne)
    obtain ⟨⟨l1, hl1⟩, -, -, -⟩ := trialStep_props hs1
    have hne1 : s1.combos ≠ [] := by
      rw [hl1]
      simp [hne]
    obtain ⟨s', hs', l2, hl2⟩ := ih (t + 1) s1 hne1
    refine ⟨s', ?_, l1 ++ l2, ?_⟩
    · simp only [loopFrom]
      rw [hs1]
      exact hs'
    · rw [hl2, hl1, List.append_assoc]

theorem loopFrom_bind (O : Oracles R α) (P : OptParams) (D : List (List R)) :
    ∀ (m n t : ℕ) (s : OState R α),
      loopFrom O P D t (m + n) s = (loopFrom O P D t m s).bind (loopFrom O P D (t + m) n) := by
  intro m
  induction m with
  | zero => intro n t s; simp [loopFrom]
  | succ m ih =>
    intro n t s
    rw [show m + 1 + n = (m + n) + 1 from by omega]
    simp only [loopFrom]
    cases h : trialStep O P D t s with
    | none => simp
    | some s1 =>
      simp only [Option.bind_some]
      have ih' := ih n (t + 1) s1
      rw [show t + 1 + m = t + (m + 1) from by omega] at ih'
      exact ih'

theorem loopFrom_combos (O : Oracles R α) (P : OptParams) (D : List (List R)) :
    ∀ (n t : ℕ) (s s' : OState R α), loopFrom O P D t n s = some s' →
      ∃ l, s'.combos = s.combos ++ l := by
  intro n
  induction n with
  | zero =>
    intro t s s' h
    injection h with h
    subst h
    exact ⟨[], by simp⟩
  | succ n ih =>
    intro t s s' h
    simp only [loopFrom] at h
    cases hstep : trialStep O P D t s with
    | none => rw [hstep] at h; cases h
    | some s1 =>
      rw [hstep] at h
      obtain ⟨⟨l1, hl1⟩, -, -, -⟩ := trialStep_props hstep
      obtain ⟨l2, hl2⟩ := ih (t + 1) s1 s' h
      exact ⟨l1 ++ l2, by rw [hl2, hl1, List.append_assoc]⟩

theorem loopFrom_best_mono (O : Oracles R α) (P : OptParams) (D : List (List R)) :
    ∀ (n t : ℕ) (s s' : OState R α), loopFrom O P D t n s = some s' →
      ∀ b, s.best = some b → ∃ b', s'.best = some b' ∧ b.score ≤ b'.score := by
  intro n
  induction n with
  | zero =>
    intro t s s' h b hb
    injection h with h
    subst h
    exact ⟨b, hb, le_refl _⟩
  | succ n ih =>
    intro t s s' h b hb
    simp only [loopFrom] at h
    cases hstep : trialStep O P D t s with
    | none => rw [hstep] at h; cases h
    | some s1 =>
      rw [hstep] at h
      obtain ⟨-, -, hmono, -⟩ := trialStep_props hstep
      obtain ⟨b1, hb1, hle1⟩ := hmono b hb
      obtain ⟨b', hb', hle2⟩ := ih (t + 1) s1 s' h b1 hb1
      exact ⟨b', hb', le_trans hle1 hle2⟩

theorem loopFrom_best_isSome (O : Oracles R α) (P : OptParams) (D : List (List R)) :
    ∀ (n t : ℕ) (s s' : OState R α), loopFrom O P D t n s = some s' → 1 ≤ n →
      s'.best.isSome := by
  intro n
  cases n with
  | zero => intro t s s' h h1; exact absurd h1 (by omega)
  | succ n =>
    intro t s s' h h1
    simp only [loopFrom] at h
    cases hstep : trialStep O P D t s with
    | none => rw [hstep] at h; cases h
    | some s1 =>
      rw [hstep] at h
      obtain ⟨-, hsome, -, -⟩ := trialStep_props hstep
      obtain ⟨b1, hb1⟩ := Option.isSome_iff_exists.mp hsome
      obtain ⟨b', hb', -⟩ := loopFrom_best_mono O P D n (t + 1) s1 s' h b1 hb1
      simp [hb']

theorem loopFrom_demos (O : Oracles R α) (P : OptParams) (D : List (List R)) :
    ∀ (n t : ℕ) (s s' : OState R α), loopFrom O P D t n s = some s' →
      (∀ c ∈ s.combos, ∃ j : ℕ, D[j]? = some c.demos) →
      ∀ c ∈ s'.combos, ∃ j : ℕ, D[j]? = some c.demos := by
  intro n
  induction n with
  | zero =>
    intro t s s' h hs
    injection h with h
    subst h
    exact hs
  | succ n ih =>
    intro t s s' h hs
    simp only [loopFrom] at h
    cases hstep : trialStep O P D t s with
    | none => rw [hstep] at h; cases h
    | some s1 =>
      rw [hstep] at h
      obtain ⟨-, -, -, hmem⟩ := trialStep_props hstep
      refine ih (t + 1) s1 s' h (fun c hc => ?_)
      rcases hmem c hc with hc' | hj
      · exact hs c hc'
      · exact hj

theorem generateDemoCandidates_length (numDemoCandidates numFewShot : ℕ)
    (shuffle1 shuffle2 : ℕ → List R) (passes : ℕ → R → Bool) :
    (generateDemoCandidates numDemoCandidates numFewShot shuffle1 shuffle2 passes).length
      = numDemoCandidates := by
  simp [generateDemoCandidates]

theorem initCombos_length (promptCandidates : List String) (D : List (List R)) :
    (initCombos promptCandidates D).length = promptCandidates.length * D.length := by
  unfold initCombos
  rw [flatMap_length_const _ _ D.length]
  intro x hx
  simp [indexedPools_length]

theorem initCombos_demos (promptCandidates : List String) (D : List (List R)) :
    ∀ c ∈ initCombos promptCandidates D, ∃ j : ℕ, D[j]? = some c.demos := by
  intro c hc
  unfold initCombos at hc
  exact mem_expandBlock hc

/-! ## Claim C1: the recorded best score is monotonically non-decreasing -/

/-- C1: throughout a run of `runBayesianOptimization`, the recorded best
score is monotonically non-decreasing: `best` is replaced (both in the
per-trial mini-batch step and in the full-evaluation checkpoint) only when
the newly observed score strictly exceeds the current best score, so for
every pair of trial counts `t1 ≤ t2` within the run, the best score after
`t1` trials is `≤` the best score after `t2` trials. -/
theorem C1_best_score_monotone (promptCandidates : List String) (O : Oracles R α)
    (P : OptParams) (shuffle1 shuffle2 : ℕ → List R) (passes : ℕ → R → Bool)
    (t1 t2 : ℕ) (h12 : t1 ≤ t2) (ht2 : t2 ≤ P.numTrials)
    (hdef : (stateAfter promptCandidates O P shuffle1 shuffle2 passes t2).isSome) :
    ∃ s1 s2, stateAfter promptCandidates O P shuffle1 shuffle2 passes t1 = some s1 ∧
      stateAfter promptCandidates O P shuffle1 shuffle2 passes t2 = some s2 ∧
      ∀ b1, s1.best = some b1 → ∃ b2, s2.best = some b2 ∧ b1.score ≤ b2.score := by
  simp only [stateAfter] at hdef ⊢
  obtain ⟨s2, hs2⟩ := Option.isSome_iff_exists.mp hdef
  have hs2' := hs2
  rw [show t2 = t1 + (t2 - t1) from by omega] at hs2
  rw [loopFrom_bind] at hs2
  cases h1 : loopFrom O P
      (generateDemoCandidates P.numDemoCandidates P.numFewShot shuffle1 shuffle2 passes) 0 t1
      (initState promptCandidates
        (generateDemoCandidates P.numDemoCandidates P.numFewShot shuffle1 shuffle2 passes)) with
  | none => rw [h1] at hs2; cases hs2
  | some s1 =>
    rw [h1] at hs2
    simp only [Option.some_bind] at hs2
    refine ⟨s1, s2, rfl, hs2', fun b1 hb1 => ?_⟩
    exact loopFrom_best_mono O P _ (t2 - t1) (0 + t1) s1 s2 hs2 b1 hb1

theorem C1_best_score_monotone_witness :
    ∃ s1 s2, stateAfter ["p"] witOracles witParams witShuffle witShuffle witPasses 1 = some s1 ∧
      stateAfter ["p"] witOracles witParams witShuffle witShuffle witPasses 4 = some s2 ∧
      ∀ b1, s1.best = some b1 → ∃ b2, s2.best = some b2 ∧ b1.score ≤ b2.score :=
  C1_best_score_monotone ["p"] witOracles witParams witShuffle witShuffle witPasses 1 4
    (by decide) (by decide) (by decide)

/-! ## Claim C9: termination and result of the full run

As stated the claim is false: with `numTrials = 0` the trial loop never runs
and the function returns its initial `best`, which is `null` — not a
`BestResult` record (counterexample below).  Moreover, with
`numDemoCandidates = 0` the combo registry is empty and the first steady
trial crashes reading `combos[0].instruction`.  The amended claim adds
`numTrials ≥ 1` and `numDemoCandidates ≥ 1`. -/

/-- C9 (counterexample to the claim as stated): a run with `numTrials = 0`
and a non-empty prompt-candidate list returns `null` (`some none`), not a
`BestResult` record. -/
theorem C9_zero_trials_returns_null :
    runBayesianOptimization ["p"] witOracles ⟨0, 0, 1, 1, 2⟩ witShuffle witShuffle witPasses
      = some none := by decide

/-- C9 (amended): for `numTrials ≥ 1`, a non-empty prompt-candidate list and
`numDemoCandidates ≥ 1`, `runBayesianOptimization` terminates after exactly
`numTrials` trials (the loop is structural recursion on `numTrials`) and
returns a non-null `BestResult` record. -/
theorem C9_terminates_with_best (promptCandidates : List String) (O : Oracles R α)
    (P : OptParams) (shuffle1 shuffle2 : ℕ → List R) (passes : ℕ → R → Bool)
    (hn : 1 ≤ P.numTrials) (hp : promptCandidates ≠ []) (hd : 1 ≤ P.numDemoCandidates) :
    ∃ b, runBayesianOptimization promptCandidates O P shuffle1 shuffle2 passes
      = some (some b) := by
  simp only [runBayesianOptimization]
  have h1 : 0 < promptCandidates.length := List.length_pos.mpr hp
  have h2 : 0 < (generateDemoCandidates (R := R) P.numDemoCandidates P.numFewShot
      shuffle1 shuffle2 passes).length := by
    rw [generateDemoCandidates_length]
    omega
  have h3 : 0 < (initCombos promptCandidates
      (generateDemoCandidates P.numDemoCandidates P.numFewShot shuffle1 shuffle2 passes)).length := by
    rw [initCombos_length]
    exact Nat.mul_pos h1 h2
  have hne : (initState (α := α) promptCandidates
      (generateDemoCandidates P.numDemoCandidates P.numFewShot shuffle1 shuffle2 passes)).combos
      ≠ [] := List.length_pos.mp h3
  obtain ⟨s', hs', -⟩ := loopFrom_total O P _ P.numTrials 0 _ hne
  have hbest := loopFrom_best_isSome O P _ P.numTrials 0 _ s' hs' hn
  obtain ⟨b, hb⟩ := Option.isSome_iff_exists.mp hbest
  refine ⟨b, ?_⟩
  rw [hs']
  simp [hb]

theorem C9_terminates_with_best_witness :
    ∃ b, runBayesianOptimization ["p"] witOracles witParams witShuffle witShuffle witPasses
      = some (some b) :=
  C9_terminates_with_best ["p"] witOracles witParams witShuffle witShuffle witPasses
    (by decide) (by decide) (by decide)

/-! ## Claim C3: warm-start selection -/

/-- C3: for every trial index `t` smaller than the number of currently known
combos, the selected combo is exactly `combos[t]` — the warm-start branch,
taken before any UCB value is computed.  In particular, during trials
`0 .. numInitialCombos - 1` the registry still starts with the initial
combos, so trial `t` force-selects initial combo number `t`: each initial
combo is selected exactly once in that range (one registry index per
trial). -/
theorem C3_warm_start (promptCandidates : List String) (O : Oracles R α) (P : OptParams)
    (shuffle1 shuffle2 : ℕ → List R) (passes : ℕ → R → Bool) (t : ℕ)
    (ht : t < (initCombos promptCandidates
      (generateDemoCandidates P.numDemoCandidates P.numFewShot shuffle1 shuffle2 passes)).length)
    (htn : t < P.numTrials) :
    ∃ s, stateAfter promptCandidates O P shuffle1 shuffle2 passes t = some s ∧
      t < s.combos.length ∧
      selectCombo O.sqrt O.log s.stats t s.combos = s.combos[t]? ∧
      s.combos[t]? = (initCombos promptCandidates
        (generateDemoCandidates P.numDemoCandidates P.numFewShot shuffle1 shuffle2 passes))[t]? := by
  simp only [stateAfter]
  have heq : (initState (α := α) promptCandidates
      (generateDemoCandidates P.numDemoCandidates P.numFewShot shuffle1 shuffle2 passes)).combos
      = initCombos promptCandidates
        (generateDemoCandidates P.numDemoCandidates P.numFewShot shuffle1 shuffle2 passes) := rfl
  have hne : (initState (α := α) promptCandidates
      (generateDemoCandidates P.numDemoCandidates P.numFewShot shuffle1 shuffle2 passes)).combos
      ≠ [] := by
    rw [heq]
    exact List.length_pos.mp (by omega)
  obtain ⟨s, hs, l, hl⟩ := loopFrom_total O P _ t 0 _ hne
  rw [heq] at hl
  have hlen : t < s.combos.length := by
    rw [hl, List.length_append]
    omega
  refine ⟨s, hs, hlen, selectCombo_warm _ _ _ _ _ hlen, ?_⟩
  rw [hl]
  exact List.getElem?_append_left ht

theorem C3_warm_start_witness :
    ∃ s, stateAfter ["p"] witOracles witParams witShuffle witShuffle witPasses 0 = some s ∧
      0 < s.combos.length ∧
      selectCombo witOracles.sqrt witOracles.log s.stats 0 s.combos = s.combos[0]? ∧
      s.combos[0]? = (initCombos ["p"]
        (generateDemoCandidates witParams.numDemoCandidates witParams.numFewShot
          witShuffle witShuffle witPasses))[0]? :=
  C3_warm_start ["p"] witOracles witParams witShuffle witShuffle witPasses 0
    (by decide) (by decide)

/-! ## Claim C10: demo pools are built once and arms stay fixed -/

/-- C10: the demo pools are built exactly once, before the trial loop starts
(in the embedding, `stateAfter` threads the one fixed list
`generateDemoCandidates …` through the whole run); every combo ever present
in the registry — including combos appended at expansion checkpoints —
carries as its `demos` field one of those original pools (referenced by
index), and the registry only ever grows by appending, so every registered
arm's `(instruction, demos)` pair stays fixed from registration to the end
of the run. -/
theorem C10_pools_fixed (promptCandidates : List String) (O : Oracles R α) (P : OptParams)
    (shuffle1 shuffle2 : ℕ → List R) (passes : ℕ → R → Bool) (t1 t2 : ℕ)
    (h12 : t1 ≤ t2) (ht2 : t2 ≤ P.numTrials)
    (hdef : (stateAfter promptCandidates O P shuffle1 shuffle2 passes t2).isSome) :
    ∃ s1 s2, stateAfter promptCandidates O P shuffle1 shuffle2 passes t1 = some s1 ∧
      stateAfter promptCandidates O P shuffle1 shuffle2 passes t2 = some s2 ∧
      (∃ l, s2.combos = s1.combos ++ l) ∧
      (∀ c ∈ s2.combos, ∃ j : ℕ,
        (generateDemoCandidates P.numDemoCandidates P.numFewShot shuffle1 shuffle2
          passes)[j]? = some c.demos) := by
  simp only [stateAfter] at hdef ⊢
  obtain ⟨s2, hs2⟩ := Option.isSome_iff_exists.mp hdef
  have hs2' := hs2
  rw [show t2 = t1 + (t2 - t1) from by omega] at hs2
  rw [loopFrom_bind] at hs2
  cases h1 : loopFrom O P
      (generateDemoCandidates P.numDemoCandidates P.numFewShot shuffle1 shuffle2 passes) 0 t1
      (initState promptCandidates
        (generateDemoCandidates P.numDemoCandidates P.numFewShot shuffle1 shuffle2 passes)) with
  | none => rw [h1] at hs2; cases hs2
  | some s1 =>
    rw [h1] at hs2
    simp only [Option.some_bind] at hs2
    refine ⟨s1, s2, rfl, hs2', loopFrom_combos O P _ (t2 - t1) (0 + t1) s1 s2 hs2, ?_⟩
    exact loopFrom_demos O P _ t2 0 _ s2 hs2' (initCombos_demos promptCandidates _)

theorem C10_pools_fixed_witness :
    ∃ s1 s2, stateAfter ["p"] witOracles witParams witShuffle witShuffle witPasses 2 = some s1 ∧
      stateAfter ["p"] witOracles witParams witShuffle witShuffle witPasses 4 = some s2 ∧
      (∃ l, s2.combos = s1.combos ++ l) ∧
      (∀ c ∈ s2.combos, ∃ j : ℕ,
        (generateDemoCandidates witParams.numDemoCandidates witParams.numFewShot
          witShuffle witShuffle witPasses)[j]? = some c.demos) :=
  C10_pools_fixed ["p"] witOracles witParams witShuffle witShuffle witPasses 2 4
    (by decide) (by decide) (by decide)

/-! ## Claim C5: checkpoint expansion of the combo registry -/

theorem trialBody_checkpoint_shape (O : Oracles R α) (P : OptParams)
    (D : List (List R)) (t : ℕ) (s : OState R α) (combo : Combo R)
    (hchk : (t + 1) % P.miniBatchFullEvalSteps = 0) :
    ∃ S : OState R α, trialBody O P D t s combo = some (expandCombos D (O.proposed t) S) ∧
      S.combos = s.combos ∧ S.existingInstructions = s.existingInstructions := by
  cases hb : s.best with
  | none =>
    by_cases hfull : O.fullEvalScore t combo > O.evalScore t combo
    · simp only [trialBody, hb, hchk, if_true, Option.map_some', Option.getD_some,
        eq_self_iff_true, hfull]
      exact ⟨_, rfl, rfl, rfl⟩
    · simp only [trialBody, hb, hchk, if_true, Option.map_some', Option.getD_some,
        eq_self_iff_true, hfull, if_false]
      exact ⟨_, rfl, rfl, rfl⟩
  | some b =>
    by_cases hscore : O.evalScore t combo > b.score
    · by_cases hfull : O.fullEvalScore t combo > O.evalScore t combo
      · simp only [trialBody, hb, hchk, if_true, Option.map_some', Option.getD_some,
          eq_self_iff_true, hscore, hfull]
        exact ⟨_, rfl, rfl, rfl⟩
      · simp only [trialBody, hb, hchk, if_true, Option.map_some', Option.getD_some,
          eq_self_iff_true, hscore, hfull, if_false]
        exact ⟨_, rfl, rfl, rfl⟩
    · by_cases hfull : O.fullEvalScore t combo > b.score
      · simp only [trialBody, hb, hchk, if_true, Option.map_some', Option.getD_some,
          eq_self_iff_true, hscore, hfull, if_false]
        exact ⟨_, rfl, rfl, rfl⟩
      · simp only [trialBody, hb, hchk, if_true, Option.map_some', Option.getD_some,
          eq_self_iff_true, hscore, hfull, if_false]
        exact ⟨_, rfl, rfl, rfl⟩

/-- C5: at every full-evaluation checkpoint (a trial `t` with
`(t + 1) % miniBatchFullEvalSteps = 0` that does not crash), writing `fresh`
for the proposed instruction texts that are pairwise distinct and not yet in
the known-instruction set, the step appends to the registry exactly one
combo per `(fresh instruction, demo pool)` pair — `fresh.length *
numDemoCandidates` new combos — while the existing registry prefix is kept
unchanged; no combo with a duplicate instruction text is admitted
(`fresh` is duplicate-free and disjoint from the known set). -/
theorem C5_checkpoint_expansion (O : Oracles R α) (P : OptParams)
    (shuffle1 shuffle2 : ℕ → List R) (passes : ℕ → R → Bool) (t : ℕ)
    (s : OState R α)
    (hchk : (t + 1) % P.miniBatchFullEvalSteps = 0)
    (hstep : (trialStep O P
      (generateDemoCandidates P.numDemoCandidates P.numFewShot shuffle1 shuffle2 passes)
      t s).isSome) :
    (trialStep O P
        (generateDemoCandidates P.numDemoCandidates P.numFewShot shuffle1 shuffle2 passes)
        t s).map (fun s' => s'.combos)
      = some (s.combos ++ (newOnes s.existingInstructions (O.proposed t)).flatMap
          (fun instr => (indexedPools 0
              (generateDemoCandidates P.numDemoCandidates P.numFewShot shuffle1 shuffle2
                passes)).map
            (fun p => ⟨instr, p.2, comboKey instr p.1⟩))) ∧
      (trialStep O P
          (generateDemoCandidates P.numDemoCandidates P.numFewShot shuffle1 shuffle2 passes)
          t s).map (fun s' => s'.combos.length)
        = some (s.combos.length
            + (newOnes s.existingInstructions (O.proposed t)).length * P.numDemoCandidates) ∧
      (newOnes s.existingInstructions (O.proposed t)).Nodup ∧
      (∀ x ∈ newOnes s.existingInstructions (O.proposed t), x ∉ s.existingInstructions) := by
  unfold trialStep at hstep ⊢
  cases hsel : selectCombo O.sqrt O.log s.stats t s.combos with
  | none => rw [hsel] at hstep; simp at hstep
  | some combo =>
    obtain ⟨S, hS, hc, he⟩ := trialBody_checkpoint_shape O P
      (generateDemoCandidates P.numDemoCandidates P.numFewShot shuffle1 shuffle2 passes)
      t s combo hchk
    have hcombos := (expandCombos_spec
      (generateDemoCandidates P.numDemoCandidates P.numFewShot shuffle1 shuffle2 passes)
      (O.proposed t) S).1
    rw [hc, he] at hcombos
    have hblock : ((newOnes s.existingInstructions (O.proposed t)).flatMap
        (fun instr => (indexedPools 0
            (generateDemoCandidates P.numDemoCandidates P.numFewShot shuffle1 shuffle2
              passes)).map
          (fun p => (⟨instr, p.2, comboKey instr p.1⟩ : Combo R)))).length
        = (newOnes s.existingInstructions (O.proposed t)).length * P.numDemoCandidates := by
      rw [flatMap_length_const _ _ P.numDemoCandidates]
      intro x hx
      rw [List.length_map, indexedPools_length, generateDemoCandidates_length]
    refine ⟨?_, ?_, newOnes_nodup _ _, newOnes_not_mem _ _⟩
    · show (trialBody O P _ t s combo).map (fun s' => s'.combos) = _
      rw [hS]
      simp only [Option.map_some']
      rw [hcombos]
    · show (trialBody O P _ t s combo).map (fun s' => s'.combos.length) = _
      rw [hS]
      simp only [Option.map_some']
      rw [hcombos, List.length_append, hblock]

theorem C5_checkpoint_expansion_witness :
    (trialStep witOracles witParamsChk
        (generateDemoCandidates witParamsChk.numDemoCandidates witParamsChk.numFewShot
          witShuffle witShuffle witPasses)
        0 (initState (R := ℕ) (α := ℤ) ["p"]
          (generateDemoCandidates witParamsChk.numDemoCandidates witParamsChk.numFewShot
            witShuffle witShuffle witPasses))).map (fun s' => s'.combos)
      = some ((initState (R := ℕ) (α := ℤ) ["p"]
          (generateDemoCandidates witParamsChk.numDemoCandidates witParamsChk.numFewShot
            witShuffle witShuffle witPasses)).combos
          ++ (newOnes (initState (R := ℕ) (α := ℤ) ["p"]
              (generateDemoCandidates witParamsChk.numDemoCandidates witParamsChk.numFewShot
                witShuffle witShuffle witPasses)).existingInstructions
              (witOracles.proposed 0)).flatMap
            (fun instr => (indexedPools 0
                (generateDemoCandidates witParamsChk.numDemoCandidates
                  witParamsChk.numFewShot witShuffle witShuffle witPasses)).map
              (fun p => ⟨instr, p.2, comboKey instr p.1⟩))) ∧
      (trialStep witOracles witParamsChk
          (generateDemoCandidates witParamsChk.numDemoCandidates witParamsChk.numFewShot
            witShuffle witShuffle witPasses)
          0 (initState (R := ℕ) (α := ℤ) ["p"]
            (generateDemoCandidates witParamsChk.numDemoCandidates witParamsChk.numFewShot
              witShuffle witShuffle witPasses))).map (fun s' => s'.combos.length)
        = some ((initState (R := ℕ) (α := ℤ) ["p"]
              (generateDemoCandidates witParamsChk.numDemoCandidates witParamsChk.numFewShot
                witShuffle witShuffle witPasses)).combos.length
            + (newOnes (initState (R := ℕ) (α := ℤ) ["p"]
                (generateDemoCandidates witParamsChk.numDemoCandidates witParamsChk.numFewShot
                  witShuffle witShuffle witPasses)).existingInstructions
                (witOracles.proposed 0)).length * witParamsChk.numDemoCandidates) ∧
      (newOnes (initState (R := ℕ) (α := ℤ) ["p"]
          (generateDemoCandidates witParamsChk.numDemoCandidates witParamsChk.numFewShot
            witShuffle witShuffle witPasses)).existingInstructions
          (witOracles.proposed 0)).Nodup ∧
      (∀ x ∈ newOnes (initState (R := ℕ) (α := ℤ) ["p"]
          (generateDemoCandidates witParamsChk.numDemoCandidates witParamsChk.numFewShot
            witShuffle witShuffle witPasses)).existingInstructions
          (witOracles.proposed 0),
        x ∉ (initState (R := ℕ) (α := ℤ) ["p"]
          (generateDemoCandidates witParamsChk.numDemoCandidates witParamsChk.numFewShot
            witShuffle witShuffle witPasses)).existingInstructions) :=
  C5_checkpoint_expansion witOracles witParamsChk witShuffle witShuffle witPasses 0
    (initState (R := ℕ) (α := ℤ) ["p"]
      (generateDemoCandidates witParamsChk.numDemoCandidates witParamsChk.numFewShot
        witShuffle witShuffle witPasses))
    (by decide) (by decide)

/-! ## Claim C4: steady-state UCB selection -/

theorem argmaxFrom_spec {γ β : Type} [LinearOrder β] (f : γ → β) :
    ∀ (l : List γ) (acc : γ), ∃ l1 l2, acc :: l = l1 ++ argmaxFrom f l acc :: l2 ∧
      (∀ c ∈ acc :: l, f c ≤ f (argmaxFrom f l acc)) ∧
      (∀ c ∈ l1, f c < f (argmaxFrom f l acc)) := by
  intro l
  induction l with
  | nil =>
    intro acc
    exact ⟨[], [], by simp [argmaxFrom], by simp [argmaxFrom], by simp⟩
  | cons c rest ih =>
    intro acc
    by_cases hlt : f acc < f c
    · have hr : argmaxFrom f (c :: rest) acc = argmaxFrom f rest c := by
        simp [argmaxFrom, hlt]
      rw [hr]
      obtain ⟨l1, l2, hdecomp, hbound, hstrict⟩ := ih c
      refine ⟨acc :: l1, l2, ?_, ?_, ?_⟩
      · rw [List.cons_append, ← hdecomp]
      · intro x hx
        rcases List.mem_cons.mp hx with rfl | hx
        · exact le_of_lt (lt_of_lt_of_le hlt (hbound c (by simp)))
        · exact hbound x hx
      · intro x hx
        rcases List.mem_cons.mp hx with rfl | hx
        · exact lt_of_lt_of_le hlt (hbound c (by simp))
        · exact hstrict x hx
    · have hr : argmaxFrom f (c :: rest) acc = argmaxFrom f rest acc := by
        simp [argmaxFrom, hlt]
      rw [hr]
      obtain ⟨l1, l2, hdecomp, hbound, hstrict⟩ := ih acc
      have hbound' : ∀ x ∈ acc :: c :: rest, f x ≤ f (argmaxFrom f rest acc) := by
        intro x hx
        rcases List.mem_cons.mp hx with rfl | hx
        · exact hbound x (by simp)
        · rcases List.mem_cons.mp hx with rfl | hx
          · exact le_trans (le_of_not_lt hlt) (hbound acc (by simp))
          · exact hbound x (by simp [hx])
      cases l1 with
      | nil =>
        simp only [List.nil_append] at hdecomp
        injection hdecomp with h1 h2
        refine ⟨[], c :: rest, ?_, hbound', by simp⟩
        simp only [List.nil_append]
        rw [← h1]
      | cons a l1' =>
        simp only [List.cons_append, List.cons.injEq] at hdecomp
        refine ⟨acc :: c :: l1', l2, ?_, hbound', ?_⟩
        · simp only [List.cons_append, List.cons.injEq, true_and]
          rw [← hdecomp.2]
        · intro x hx
          have hastrict : f acc < f (argmaxFrom f rest acc) := by
            have := hstrict a (by simp)
            rw [← hdecomp.1] at this
            exact this
          rcases List.mem_cons.mp hx with rfl | hx
          · exact hastrict
          · rcases List.mem_cons.mp hx with rfl | hx
            · exact lt_of_le_of_lt (le_of_not_lt hlt) hastrict
            · exact hstrict x (by simp [hx])

theorem ucbLoop_find_none (sqrt log : α → α) (stats : List (String × Stat α)) (t : ℕ) :
    ∀ (l : List (Combo R)) (acc : Combo R) (m : Option α) (c : Combo R),
      l.find? (fun c' => (findStat stats c'.key).isNone) = some c →
      ucbLoop sqrt log stats t l acc m = c := by
  intro l
  induction l with
  | nil => intro acc m c h; simp at h
  | cons c0 rest ih =>
    intro acc m c h
    cases hfind : findStat stats c0.key with
    | none =>
      rw [List.find?_cons_of_pos _ (by simp [hfind])] at h
      injection h with h
      subst h
      simp [ucbLoop, hfind]
    | some st =>
      rw [List.find?_cons_of_neg _ (by simp [hfind])] at h
      simp only [ucbLoop, hfind]
      split
      · exact ih c0 _ c h
      · exact ih acc _ c h

theorem ucbLoop_eq_argmax (sqrt log : α → α) (stats : List (String × Stat α)) (t : ℕ) :
    ∀ (l : List (Combo R)) (acc : Combo R),
      (∀ c ∈ l, (findStat stats c.key).isSome) →
      ucbLoop sqrt log stats t l acc (some (ucbOf sqrt log stats t acc))
        = argmaxFrom (ucbOf sqrt log stats t) l acc := by
  intro l
  induction l with
  | nil => intro acc h; rfl
  | cons c0 rest ih =>
    intro acc h
    obtain ⟨st, hst⟩ := Option.isSome_iff_exists.mp (h c0 (by simp))
    have hrest : ∀ c ∈ rest, (findStat stats c.key).isSome :=
      fun c hc => h c (by simp [hc])
    have hu : ucbValue sqrt log t st = ucbOf sqrt log stats t c0 := by
      simp [ucbOf, hst]
    simp only [ucbLoop, hst, hu]
    by_cases hlt : ucbOf sqrt log stats t acc < ucbOf sqrt log stats t c0
    · have hg : gtOpt (ucbOf sqrt log stats t c0)
          (some (ucbOf sqrt log stats t acc)) = true := by
        simp [gtOpt, hlt]
      simp only [hg]
      simp only [if_true]
      rw [ih c0 hrest]
      simp [argmaxFrom, hlt]
    · have hg : gtOpt (ucbOf sqrt log stats t c0)
          (some (ucbOf sqrt log stats t acc)) = false := by
        simp [gtOpt, hlt]
      simp only [hg]
      simp only [Bool.false_eq_true, if_false]
      rw [ih acc hrest]
      simp [argmaxFrom, hlt]

/-- C4: steady-state bandit selection.  For `t ≥ combos.length` (and a
non-empty registry, the only case in which the JS code does not crash): if
some combo has no recorded statistic, the first such combo in registry order
is selected immediately; otherwise the selected combo attains the maximum of
`ucb = total/count + Math.sqrt(2 * Math.log(t + 1) / count)` over the whole
registry and every combo placed before it in registry order has a strictly
smaller UCB value — ties are resolved in favor of the first-encountered
combo.  (The `hcnt` hypothesis records that every stored statistic counts at
least one observation, as is the case in every reachable state.) -/
theorem C4_steady_state (stats : List (String × Stat ℝ)) (t : ℕ)
    (combos : List (Combo R)) (hlen : combos.length ≤ t) (hne : combos ≠ [])
    (hcnt : ∀ kv ∈ stats, 1 ≤ kv.2.count) :
    (∀ c, combos.find? (fun c' => (findStat stats c'.key).isNone) = some c →
        selectCombo Real.sqrt Real.log stats t combos = some c) ∧
      ((∀ c ∈ combos, (findStat stats c.key).isSome) →
        ∃ c l1 l2, selectCombo Real.sqrt Real.log stats t combos = some c ∧
          combos = l1 ++ c :: l2 ∧
          (∀ c' ∈ combos, ucbOf Real.sqrt Real.log stats t c'
              ≤ ucbOf Real.sqrt Real.log stats t c) ∧
          (∀ c' ∈ l1, ucbOf Real.sqrt Real.log stats t c'
              < ucbOf Real.sqrt Real.log stats t c)) := by
  rcases combos with _ | ⟨c0, rest⟩
  · exact absurd rfl hne
  · have hsel : selectCombo Real.sqrt Real.log stats t (c0 :: rest)
        = some (ucbLoop Real.sqrt Real.log stats t (c0 :: rest) c0 none) := by
      unfold selectCombo
      rw [if_neg (by simp only [List.length_cons] at hlen ⊢; omega)]
    constructor
    · intro c hfind
      rw [hsel, ucbLoop_find_none Real.sqrt Real.log stats t _ c0 none c hfind]
    · intro hall
      obtain ⟨st0, hst0⟩ := Option.isSome_iff_exists.mp (hall c0 (by simp))
      have hrest : ∀ c ∈ rest, (findStat stats c.key).isSome :=
        fun c hc => hall c (by simp [hc])
      have hu0 : ucbValue Real.sqrt Real.log t st0
          = ucbOf Real.sqrt Real.log stats t c0 := by
        simp [ucbOf, hst0]
      have hstep1 : ucbLoop Real.sqrt Real.log stats t (c0 :: rest) c0 none
          = ucbLoop Real.sqrt Real.log stats t rest c0
              (some (ucbOf Real.sqrt Real.log stats t c0)) := by
        simp [ucbLoop, hst0, gtOpt, hu0]
      obtain ⟨l1, l2, hdecomp, hbound, hstrict⟩ :=
        argmaxFrom_spec (ucbOf Real.sqrt Real.log stats t) rest c0
      refine ⟨argmaxFrom (ucbOf Real.sqrt Real.log stats t) rest c0, l1, l2, ?_,
        hdecomp, hbound, hstrict⟩
      rw [hsel, hstep1, ucbLoop_eq_argmax Real.sqrt Real.log stats t rest c0 hrest]

theorem C4_steady_state_witness :
    (∀ c, witCombosR.find? (fun c' => (findStat witStatsR c'.key).isNone) = some c →
        selectCombo Real.sqrt Real.log witStatsR 2 witCombosR = some c) ∧
      ((∀ c ∈ witCombosR, (findStat witStatsR c.key).isSome) →
        ∃ c l1 l2, selectCombo Real.sqrt Real.log witStatsR 2 witCombosR = some c ∧
          witCombosR = l1 ++ c :: l2 ∧
          (∀ c' ∈ witCombosR, ucbOf Real.sqrt Real.log witStatsR 2 c'
              ≤ ucbOf Real.sqrt Real.log witStatsR 2 c) ∧
          (∀ c' ∈ l1, ucbOf Real.sqrt Real.log witStatsR 2 c'
              < ucbOf Real.sqrt Real.log witStatsR 2 c)) :=
  C4_steady_state witStatsR 2 witCombosR (by decide) (by simp [witCombosR]) (by decide)

/-! ## Claim C8: UCB optimism in the observation count -/

/-- C8: for two combos with equal empirical mean `total / count` evaluated at
the same trial index `t`, the combo with the smaller (positive) observation
count receives the larger-or-equal UCB value
`mean + Math.sqrt(2 * Math.log(t + 1) / count)`. -/
theorem C8_ucb_optimism (totalA totalB : ℝ) (cA cB t : ℕ) (h0 : 0 < cA)
    (hab : cA < cB) (hmean : totalA / (cA : ℝ) = totalB / (cB : ℝ)) :
    ucbValue Real.sqrt Real.log t ⟨totalB, cB⟩ ≤ ucbValue Real.sqrt Real.log t ⟨totalA, cA⟩ := by
  unfold ucbValue
  simp only
  rw [hmean]
  refine add_le_add_left (Real.sqrt_le_sqrt ?_) _
  have hlog : 0 ≤ Real.log ((t : ℝ) + 1) := by
    refine Real.log_nonneg ?_
    have : (0 : ℝ) ≤ (t : ℝ) := Nat.cast_nonneg t
    linarith
  have hnum : 0 ≤ 2 * Real.log ((t : ℝ) + 1) := by linarith
  have hcA : (0 : ℝ) < (cA : ℝ) := by exact_mod_cast h0
  have hcB : (cA : ℝ) ≤ (cB : ℝ) := by exact_mod_cast le_of_lt hab
  exact div_le_div_of_nonneg_left hnum hcA hcB

theorem C8_ucb_optimism_witness :
    ucbValue Real.sqrt Real.log 0 ⟨(0 : ℝ), 2⟩ ≤ ucbValue Real.sqrt Real.log 0 ⟨(0 : ℝ), 1⟩ :=
  C8_ucb_optimism 0 0 1 2 0 (by decide) (by decide) (by norm_num)

/-! ## Claim C2: demo-pool sizes -/

theorem collectTeacherDemos_length_le (passes : R → Bool) (numFewShot : ℕ) :
    ∀ (l demos : List R), demos.length ≤ numFewShot →
      (collectTeacherDemos passes numFewShot l demos).length ≤ numFewShot := by
  intro l
  induction l with
  | nil => intro demos h; exact h
  | cons row rest ih =>
    intro demos h
    simp only [collectTeacherDemos]
    by_cases hlen : numFewShot ≤ demos.length
    · rw [if_pos hlen]
      exact h
    · rw [if_neg hlen]
      by_cases hp : passes row
      · rw [if_pos hp]
        refine ih _ ?_
        rw [List.length_append, List.length_singleton]
        omega
      · rw [if_neg hp]
        exact ih _ h

theorem generateDemoCandidate_length (numFewShot : ℕ) (shuffled1 shuffled2 : List R)
    (passes : R → Bool) (h2 : numFewShot ≤ shuffled2.length) :
    (generateDemoCandidate numFewShot shuffled1 shuffled2 passes).length = numFewShot := by
  unfold generateDemoCandidate
  have hle := collectTeacherDemos_length_le passes numFewShot shuffled1 [] (by simp)
  by_cases hlt : (collectTeacherDemos passes numFewShot shuffled1 []).length < numFewShot
  · rw [if_pos hlt]
    rw [List.length_append]
    unfold selectRandomRowsFromDataset
    rw [List.length_take]
    omega
  · rw [if_neg hlt]
    omega

/-- C2 (counterexample to the claim as stated): on the empty dataset — whose
only shuffled copy is `[]` — with `numDemoCandidates = 1` and
`numFewShot = 1`, the returned pool is `[]` of length `0 ≠ 1`: the random
backfill cannot make up the shortfall when the dataset itself has fewer than
`numFewShot` rows. -/
theorem C2_small_dataset_cex :
    ¬ (∀ pool ∈ generateDemoCandidates (R := ℕ) 1 1 (fun _ => []) (fun _ => [])
        (fun _ _ => false), pool.length = 1) := by decide

/-- C2 (amended): whenever the dataset has at least `numFewShot` rows, every
pool built by `generateDemoCandidates` has length exactly `numFewShot`,
regardless of which rows (possibly none) pass the perfect-score teacher
filter: the shortfall is backfilled with random dataset rows.  The `hperm`
hypothesis states that the backfill shuffle is a permutation of the dataset,
which is what `[...dataset].sort(() => Math.random() - 0.5)` produces. -/
theorem C2_pool_sizes (dataset : List R) (numDemoCandidates numFewShot : ℕ)
    (shuffle1 shuffle2 : ℕ → List R) (passes : ℕ → R → Bool)
    (hperm : ∀ c, (shuffle2 c).Perm dataset) (hd : numFewShot ≤ dataset.length) :
    ∀ pool ∈ generateDemoCandidates numDemoCandidates numFewShot shuffle1 shuffle2 passes,
      pool.length = numFewShot := by
  intro pool hp
  simp only [generateDemoCandidates, List.mem_map, List.mem_range] at hp
  obtain ⟨c, -, rfl⟩ := hp
  refine generateDemoCandidate_length _ _ _ _ ?_
  rw [(hperm c).length_eq]
  exact hd

theorem C2_pool_sizes_witness :
    [1] ∈ generateDemoCandidates (R := ℕ) 1 1 (fun _ => [1, 0]) (fun _ => [1, 0])
        (fun _ _ => false) ∧ ([1] : List ℕ).length = 1 :=
  ⟨by decide,
    C2_pool_sizes [0, 1] 1 1 (fun _ => [1, 0]) (fun _ => [1, 0]) (fun _ _ => false)
      (fun _ => (by decide : ([1, 0] : List ℕ).Perm [0, 1])) (by decide) [1] (by decide)⟩

/-! ## Claim C6: the Evaluator computes the arithmetic mean -/

/-- C6: `evaluate` returns a record `{score, instruction, fewShotExamples}`
whose `score` is the arithmetic mean, over the evaluation rows, of
`scorer (fn row.input fewShotExamples instruction) row.output`, whose
`instruction` and `fewShotExamples` are the arguments passed in, and whose
score on an empty row set is `0` (the guard `evalDataset.length === 0`
prevents any division by zero). -/
theorem C6_evaluate_mean {I O F : Type} [LinearOrderedField F] (instruction : String)
    (fewShotExamples evalDataset : List (DatasetRow I O))
    (fn : I → List (DatasetRow I O) → String → O) (scorer : O → O → F) :
    (evaluate instruction fewShotExamples evalDataset fn scorer).score
        = (evalDataset.map
            (fun row => scorer (fn row.input fewShotExamples instruction) row.output)).sum
          / (evalDataset.length : F) ∧
      (evaluate instruction fewShotExamples ([] : List (DatasetRow I O)) fn scorer).score
        = 0 ∧
      (evaluate instruction fewShotExamples evalDataset fn scorer).instruction
        = instruction ∧
      (evaluate instruction fewShotExamples evalDataset fn scorer).fewShotExamples
        = fewShotExamples := by
  refine ⟨?_, rfl, rfl, rfl⟩
  unfold evaluate
  simp only
  have hfold : ∀ (l : List (DatasetRow I O)) (a : F),
      l.foldl
          (fun acc row => acc + scorer (fn row.input fewShotExamples instruction) row.output) a
        = a + (l.map
            (fun row => scorer (fn row.input fewShotExamples instruction) row.output)).sum := by
    intro l
    induction l with
    | nil => intro a; simp
    | cons r rest ih =>
      intro a
      simp [List.foldl_cons, ih, add_assoc]
  rw [hfold]
  by_cases hlen : evalDataset.length = 0
  · rw [if_pos hlen]
    have hnil : evalDataset = [] := List.length_eq_zero.mp hlen
    subst hnil
    simp
  · rw [if_neg hlen]
    simp

/-! ## Claim C7: range and definedness of `arrayOfObjectsScorer` -/

theorem keyScore_bounds (out exp : List (String × JsValue)) (k : String) :
    0 ≤ keyScore out exp k ∧ keyScore out exp k ≤ 1 := by
  unfold keyScore
  split
  · rename_i ev ov heq1 heq2
    by_cases hev : ev.length = 0
    · rw [if_pos hev]
      norm_num
    · rw [if_neg hev]
      have hpos : (0 : ℚ) < (ev.length : ℚ) := by
        exact_mod_cast Nat.pos_of_ne_zero hev
      constructor
      · positivity
      · rw [div_le_one hpos]
        exact_mod_cast List.length_filter_le _ _
  · split
    · norm_num
    · norm_num

theorem hitsFold_bounds (out exp : List (String × JsValue)) :
    ∀ (keys : List String) (h0 : ℚ),
      h0 ≤ keys.foldl (fun h k => h + keyScore out exp k) h0 ∧
        keys.foldl (fun h k => h + keyScore out exp k) h0 ≤ h0 + (keys.length : ℚ) := by
  intro keys
  induction keys with
  | nil => intro h0; simp
  | cons k rest ih =>
    intro h0
    simp only [List.foldl_cons, List.length_cons]
    obtain ⟨hk0, hk1⟩ := keyScore_bounds out exp k
    obtain ⟨ih0, ih1⟩ := ih (h0 + keyScore out exp k)
    constructor
    · linarith
    · push_cast
      push_cast at ih1
      linarith

theorem fieldScore_mem (out exp : List (String × JsValue)) (hne : exp.length ≠ 0) :
    ∃ q, fieldScore out exp = some q ∧ 0 ≤ q ∧ q ≤ 1 := by
  unfold fieldScore
  simp only
  have hkeys : (exp.map (fun kv => kv.1)).length = exp.length := List.length_map _ _
  rw [if_neg (by rw [hkeys]; exact hne)]
  obtain ⟨hlo, hhi⟩ := hitsFold_bounds out exp (exp.map fun kv => kv.1) 0
  have hpos : (0 : ℚ) < ((exp.map fun kv => kv.1).length : ℚ) := by
    rw [hkeys]
    exact_mod_cast Nat.pos_of_ne_zero hne
  refine ⟨_, rfl, div_nonneg hlo (le_of_lt hpos), ?_⟩
  rw [div_le_one hpos]
  linarith

theorem bestMatchLoop_bounds (exp : List (String × JsValue)) (hne : exp.length ≠ 0) :
    ∀ (outs : List (List (String × JsValue))) (b : ℚ), 0 ≤ b → b ≤ 1 →
      ∃ q, bestMatchLoop exp outs (some b) = some q ∧ 0 ≤ q ∧ q ≤ 1 := by
  intro outs
  induction outs with
  | nil => intro b h0 h1; exact ⟨b, rfl, h0, h1⟩
  | cons out rest ih =>
    intro b h0 h1
    obtain ⟨f, hf, hf0, hf1⟩ := fieldScore_mem out exp hne
    simp only [bestMatchLoop, hf, jsMax]
    by_cases hone : (some (max b f) : Option ℚ) = some 1
    · rw [if_pos hone]
      have hmax : max b f = 1 := by injection hone
      exact ⟨max b f, rfl, le_trans h0 (le_max_left b f), le_of_eq hmax⟩
    · rw [if_neg hone]
      exact ih (max b f) (le_trans h0 (le_max_left b f)) (max_le h1 hf1)

theorem cumFold_bounds (output : List (List (String × JsValue))) :
    ∀ (l : List (List (String × JsValue))) (a : ℚ),
      (∀ exp ∈ l, exp.length ≠ 0) → 0 ≤ a →
      ∃ c, l.foldl (fun cum exp => optAdd cum (bestMatchLoop exp output (some 0))) (some a)
          = some c ∧ a ≤ c ∧ c ≤ a + (l.length : ℚ) := by
  intro l
  induction l with
  | nil => intro a h ha; exact ⟨a, rfl, le_refl _, by simp⟩
  | cons exp rest ih =>
    intro a h ha
    obtain ⟨q, hq, hq0, hq1⟩ :=
      bestMatchLoop_bounds exp (h exp (by simp)) output 0 (le_refl 0) (by norm_num)
    simp only [List.foldl_cons, hq, optAdd]
    obtain ⟨c, hc, hc1, hc2⟩ := ih (a + q) (fun e he => h e (by simp [he])) (by linarith)
    refine ⟨c, hc, by linarith, ?_⟩
    simp only [List.length_cons]
    push_cast
    push_cast at hc2
    linarith

/-- C7 (counterexample to the claim as stated): for `output = [{}]` and
`expected = [{}]` (one empty object each) the JS code computes
`fieldScore = hits / keys.length = 0 / 0 = NaN`, which then propagates
through `Math.max`, the accumulation and the final division: the scorer
returns `NaN` (modeled as `none`), which is not a defined number in
`[0, 1]`. -/
theorem C7_empty_object_nan_cex : arrayOfObjectsScorer [[]] [[]] = none := rfl

/-- C7 (amended): provided every object in `expected` has at least one key,
`arrayOfObjectsScorer` returns a defined number in the closed interval
`[0, 1]` for every pair of input arrays; in particular it returns `0` when
`output` is empty or `expected` is empty, and it never returns `NaN`
(`none`) under that proviso. -/
theorem C7_scorer_defined_unit_interval (output expected : List (List (String × JsValue)))
    (h : ∀ exp ∈ expected, exp.length ≠ 0) :
    ∃ q, arrayOfObjectsScorer output expected = some q ∧ 0 ≤ q ∧ q ≤ 1 ∧
      ((output.length = 0 ∨ expected.length = 0) → q = 0) := by
  unfold arrayOfObjectsScorer
  by_cases hexp : expected.length = 0
  · rw [if_pos hexp]
    exact ⟨0, rfl, le_refl 0, by norm_num, fun _ => rfl⟩
  · rw [if_neg hexp]
    by_cases hout : output.length = 0
    · rw [if_pos hout]
      exact ⟨0, rfl, le_refl 0, by norm_num, fun _ => rfl⟩
    · rw [if_neg hout]
      simp only
      obtain ⟨c, hc, hc1, hc2⟩ := cumFold_bounds output expected 0 h (le_refl 0)
      rw [hc]
      simp only [Option.map_some']
      have hpos : (0 : ℚ) < (expected.length : ℚ) := by
        exact_mod_cast Nat.pos_of_ne_zero hexp
      refine ⟨c / (expected.length : ℚ), rfl, div_nonneg hc1 (le_of_lt hpos), ?_, ?_⟩
      · rw [div_le_one hpos]
        linarith
      · intro hzero
        rcases hzero with h1 | h1
        · exact absurd h1 hout
        · exact absurd h1 hexp

theorem C7_scorer_defined_unit_interval_witness :
    ∃ q, arrayOfObjectsScorer [[("a", JsValue.num 1)]] [[("a", JsValue.num 1)]] = some q ∧
      0 ≤ q ∧ q ≤ 1 ∧
      ((([[("a", JsValue.num 1)]] : List (List (String × JsValue))).length = 0 ∨
        ([[("a", JsValue.num 1)]] : List (List (String × JsValue))).length = 0) → q = 0) :=
  C7_scorer_defined_unit_interval [[("a", JsValue.num 1)]] [[("a", JsValue.num 1)]]
    (by decide)

end Mipro
